import Mathlib

/-!
Shallow embedding of the minesweeper game engine from `src/main.c`.

The embedding follows the source code:
* `Cell`, `CellState`, `Field` mirror the C enums and the `Field` struct.
* Machine integers (`size_t`) are modelled as `Nat`; the one place where
  unsigned wraparound matters (`countNeighborMines` adding `-1` deltas) uses
  explicit arithmetic modulo `2 ^ 64` (`addDelta`).
* Fallible code (the out-of-bounds `exit(1)` branches of `cellAtIndex` and
  `stateAtIndex`) is modelled with `Option`.
* The randomized mine placement (`generateMines` / `generateAtCursor`) is
  modelled by passing the accepted sample of `rand()`-produced positions as an
  explicit argument together with the predicate `ValidSample` describing
  exactly the sequences the rejection loop can accept; the outer retry loop of
  `generateAtCursor` becomes the relation `GenerateAtCursor` whose conjuncts
  are the loop's exit conditions.
* One action of the interactive loop becomes the step relation `Step`
  (nondeterministic only through the mine sample of a first open).
-/

namespace MS

/-- `typedef enum { EMPTY, MINE } Cell;` -/
inductive Cell where
  | EMPTY
  | MINE
deriving DecidableEq, Repr

export Cell (EMPTY MINE)

/-- `typedef enum { OPEN, CLOSED, FLAGGED } CellState;` -/
inductive CellState where
  | OPEN
  | CLOSED
  | FLAGGED
deriving DecidableEq, Repr

export CellState (OPEN CLOSED FLAGGED)

/-- The `Field` struct: two parallel row-major buffers of `rows * cols`
cells/states, a cursor and the two `size_t` counters. -/
structure Field where
  rows : Nat
  cols : Nat
  cells : List Cell
  states : List CellState
  cursorRow : Nat
  cursorCol : Nat
  numMines : Nat
  numClosed : Nat
deriving DecidableEq, Repr

/-- `2 ^ 64`: the modulus of `size_t` arithmetic. -/
def szW : Nat := 2 ^ 64

/-- `size_t` addition of a small signed delta (`row + row_delta` in
`countNeighborMines`): the `int` delta is converted to `size_t`, so the sum is
taken modulo `2 ^ 64`. -/
def addDelta (x : Nat) (d : Int) : Nat := ((((x : Int) + d) % (szW : Int))).toNat

/-- `fieldCreate` followed by `fieldResize(field, rows, cols)`: all cells
`EMPTY`, all states `CLOSED`, cursor `(0, 0)`, `numMines = 0`,
`numClosed = rows * cols`. -/
def initField (rows cols : Nat) : Field :=
  { rows := rows
    cols := cols
    cells := List.replicate (rows * cols) EMPTY
    states := List.replicate (rows * cols) CLOSED
    cursorRow := 0
    cursorCol := 0
    numMines := 0
    numClosed := rows * cols }

/-- `cellAtIndex`: bounds check (the `exit(1)` branch is `none`), then read
`cells[row * cols + col]`. -/
def cellAtIndex (f : Field) (row col : Nat) : Option Cell :=
  if row ≥ f.rows ∨ col ≥ f.cols then none
  else f.cells.get? (row * f.cols + col)

/-- `stateAtIndex`: bounds check, then read `states[row * cols + col]`. -/
def stateAtIndex (f : Field) (row col : Nat) : Option CellState :=
  if row ≥ f.rows ∨ col ≥ f.cols then none
  else f.states.get? (row * f.cols + col)

/-- Number of cells whose content is `MINE`. -/
def countMines (cells : List Cell) : Nat := cells.countP (fun c => c == MINE)

/-- Number of cells whose state is not `OPEN` (i.e. `CLOSED` or `FLAGGED`). -/
def countNonOpen (f : Field) : Nat := f.states.countP (fun s => !(s == OPEN))

/-- The placement loop of `generateMines`: write `MINE` at each sampled
position (row-major index `r * cols + c`). -/
def setMines (cols : Nat) : List (Nat × Nat) → List Cell → List Cell
  | [], cells => cells
  | (r, c) :: rest, cells => setMines cols rest (cells.set (r * cols + c) MINE)

/-- `generateMines(field, p)` where `sample` is the sequence of positions
accepted by the inner `do { ... } while (cell == MINE)` rejection loop:
set `numMines = rows * cols * p / 100`, clear all cells to `EMPTY`, then mark
the sampled positions as `MINE`. -/
def generateMines (f : Field) (p : Nat) (sample : List (Nat × Nat)) : Field :=
  { f with
    numMines := f.rows * f.cols * p / 100
    cells := setMines f.cols sample (List.replicate (f.rows * f.cols) EMPTY) }

/-- Exactly the samples the code's rejection loop can accept: `p` passed the
`MAX_MINE_PERCENTAGE` check, one accepted position per placed mine,
`rand() % rows` and `rand() % cols` are in range, and an accepted position is
never already a mine (earlier mines are exactly the earlier samples, so the
accepted positions are pairwise distinct). -/
def ValidSample (f : Field) (p : Nat) (sample : List (Nat × Nat)) : Prop :=
  p ≤ 50 ∧
  sample.length = f.rows * f.cols * p / 100 ∧
  (∀ rc ∈ sample, rc.1 < f.rows ∧ rc.2 < f.cols) ∧
  sample.Nodup

instance (f : Field) (p : Nat) (sample : List (Nat × Nat)) :
    Decidable (ValidSample f p sample) := by
  unfold ValidSample; infer_instance

/-- The eight Moore-neighborhood deltas, in the iteration order of the two
`for` loops of `countNeighborMines`, with `(0, 0)` skipped by the `continue`. -/
def neighborDeltas : List (Int × Int) :=
  [(-1, -1), (-1, 0), (-1, 1), (0, -1), (0, 1), (1, -1), (1, 0), (1, 1)]

/-- The loop body of `countNeighborMines` over a list of remaining deltas:
compute `curr_row` / `curr_col` with `size_t` wraparound, skip when the
`curr_col >= cols || curr_row >= rows` guard fires, otherwise read the cell
through `cellAtIndex` (propagating its abort as `none`) and count mines. -/
def countNeighborMinesAux (f : Field) (row col : Nat) : List (Int × Int) → Option Nat
  | [] => some 0
  | d :: rest =>
    let curr_row := addDelta row d.1
    let curr_col := addDelta col d.2
    if curr_col ≥ f.cols ∨ curr_row ≥ f.rows then
      countNeighborMinesAux f row col rest
    else
      match cellAtIndex f curr_row curr_col, countNeighborMinesAux f row col rest with
      | none, _ => none
      | some _, none => none
      | some c, some m => some (if c = MINE then m + 1 else m)

/-- `countNeighborMines(field, row, col)`. -/
def countNeighborMines (f : Field) (row col : Nat) : Option Nat :=
  countNeighborMinesAux f row col neighborDeltas

/-- `generateAtCursor(field, p)`: some call of `generateMines` produced `g`,
and the `do ... while (hasMineNeighbors || isMine)` loop accepted it, i.e. the
cursor cell has zero mine neighbors and is not a mine (both computed without
aborting). -/
def GenerateAtCursor (f : Field) (p : Nat) (g : Field) : Prop :=
  ∃ sample, ValidSample f p sample ∧ g = generateMines f p sample ∧
    countNeighborMines g g.cursorRow g.cursorCol = some 0 ∧
    ∃ c, cellAtIndex g g.cursorRow g.cursorCol = some c ∧ c ≠ MINE

/-- `openAtCursor`: if the cursor cell is `CLOSED`, open it, decrement
`numClosed` and return its content; otherwise return `EMPTY` without change.
(`numClosed--` cannot wrap: it is only executed when a `CLOSED` cell exists,
and in every state produced by the program `numClosed` then is positive.) -/
def openAtCursor (f : Field) : Option (Field × Cell) :=
  match stateAtIndex f f.cursorRow f.cursorCol with
  | none => none
  | some CLOSED =>
    match cellAtIndex { f with states := f.states.set (f.cursorRow * f.cols + f.cursorCol) OPEN,
                               numClosed := f.numClosed - 1 } f.cursorRow f.cursorCol with
    | none => none
    | some c =>
      some ({ f with states := f.states.set (f.cursorRow * f.cols + f.cursorCol) OPEN,
                     numClosed := f.numClosed - 1 }, c)
  | some _ => some (f, EMPTY)

/-- `flagAtCursor`: toggle `CLOSED ↔ FLAGGED` at the cursor; `OPEN` cells are
left unchanged. -/
def flagAtCursor (f : Field) : Option Field :=
  match stateAtIndex f f.cursorRow f.cursorCol with
  | none => none
  | some CLOSED =>
    some { f with states := f.states.set (f.cursorRow * f.cols + f.cursorCol) FLAGGED }
  | some FLAGGED =>
    some { f with states := f.states.set (f.cursorRow * f.cols + f.cursorCol) CLOSED }
  | some OPEN => some f

/-- `revealMines`: set the state of every mine cell to `OPEN` (the loop walks
the two parallel buffers index by index). -/
def revealMines (f : Field) : Field :=
  { f with states := List.zipWith (fun c s => if c = MINE then OPEN else s) f.cells f.states }

/-- `isMineOpen`: does some index `i < rows * cols` hold an open mine? -/
def isMineOpen (f : Field) : Bool :=
  (List.range (f.rows * f.cols)).any
    (fun i => f.cells.getD i EMPTY == MINE && f.states.getD i CLOSED == OPEN)

/-- The semantic actions fed to `performAction` (`w`/`s`/`a`/`d`, space, `f`,
anything else). -/
inductive Action where
  | up
  | down
  | left
  | right
  | space
  | flag
  | other
deriving DecidableEq, Repr

/-- The `if (field->numClosed == field->numMines) return false; return true;`
epilogue of `performAction`. -/
def finalizeAction (f : Field) : Field × Bool :=
  (f, !(f.numClosed == f.numMines))

/-- The deterministic part of `performAction`: everything except the
first-open call to `generateAtCursor`.  Returns the new field and the
continue/stop boolean; `none` models the out-of-bounds abort.
(`rows - 1` in the `s`/`d` guards is `size_t` subtraction; it cannot wrap
because the game only creates grids with `rows, cols ≥ 1`.) -/
def performActionCore (f : Field) (a : Action) : Option (Field × Bool) :=
  match a with
  | .up =>
    some (finalizeAction { f with cursorRow := if 0 < f.cursorRow then f.cursorRow - 1 else f.cursorRow })
  | .down =>
    some (finalizeAction { f with cursorRow := if f.cursorRow < f.rows - 1 then f.cursorRow + 1 else f.cursorRow })
  | .left =>
    some (finalizeAction { f with cursorCol := if 0 < f.cursorCol then f.cursorCol - 1 else f.cursorCol })
  | .right =>
    some (finalizeAction { f with cursorCol := if f.cursorCol < f.cols - 1 then f.cursorCol + 1 else f.cursorCol })
  | .space =>
    match openAtCursor f with
    | none => none
    | some (f1, MINE) => some (revealMines f1, false)
    | some (f1, EMPTY) => some (finalizeAction f1)
  | .flag => (flagAtCursor f).map finalizeAction
  | .other => some (finalizeAction f)

/-- The game state threaded through the interactive loop: the field plus the
`first` flag of `runGame`. -/
structure GameState where
  field : Field
  first : Bool
deriving DecidableEq, Repr

/-- One call of `performAction`: on a first space the mine placement
`generateAtCursor` runs (nondeterministically, through its accepted sample)
and `first` becomes `false`; every other case is `performActionCore`.
The final `Bool` is `performAction`'s return value (`true` = continue). -/
inductive Step (p : Nat) : GameState → Action → GameState → Bool → Prop where
  | spaceFirst (s : GameState) (g f' : Field) (r : Bool) :
      s.first = true →
      GenerateAtCursor s.field p g →
      performActionCore g .space = some (f', r) →
      Step p s .space ⟨f', false⟩ r
  | spaceRest (s : GameState) (f' : Field) (r : Bool) :
      s.first = false →
      performActionCore s.field .space = some (f', r) →
      Step p s .space ⟨f', false⟩ r
  | nonSpace (s : GameState) (a : Action) (f' : Field) (r : Bool) :
      a ≠ .space →
      performActionCore s.field a = some (f', r) →
      Step p s a ⟨f', s.first⟩ r

/-- States at which `performAction` can actually be invoked during a game:
the initial state (grid creation requires `rows, cols ≥ 1`) and everything
reachable from it through actions that returned *continue* (the loop stops on
`false`). -/
inductive Reachable (p : Nat) : GameState → Prop where
  | init (rows cols : Nat) : 1 ≤ rows → 1 ≤ cols →
      Reachable p ⟨initField rows cols, true⟩
  | step {s : GameState} {a : Action} {s' : GameState} :
      Reachable p s → Step p s a s' true → Reachable p s'

/-- States produced by an arbitrary sequence of actions from grid creation,
including the state after a stopping (win or loss) action. -/
inductive ReachableAny (p : Nat) : GameState → Prop where
  | init (rows cols : Nat) : 1 ≤ rows → 1 ≤ cols →
      ReachableAny p ⟨initField rows cols, true⟩
  | step {s : GameState} {a : Action} {s' : GameState} {r : Bool} :
      ReachableAny p s → Step p s a s' r → ReachableAny p s'

/-- Terminal outcome as decided by `runGame` / `printResult`: the loop stops
when `performAction` returns `false`, and the final message is a loss iff
`isMineOpen`. -/
inductive Outcome where
  | cont
  | win
  | loss
deriving DecidableEq, Repr

/-- Outcome of one `performAction` result under `printResult`'s rule. -/
def outcomeOf (f : Field) (r : Bool) : Outcome :=
  if r then .cont else if isMineOpen f then .loss else .win

/-- Spec-side in-grid test for a neighbor delta, with exact (unbounded)
integer arithmetic. -/
def specNeighborP (f : Field) (row col : Nat) (d : Int × Int) : Bool :=
  decide (0 ≤ (row : Int) + d.1) && decide ((row : Int) + d.1 < (f.rows : Int)) &&
  decide (0 ≤ (col : Int) + d.2) && decide ((col : Int) + d.2 < (f.cols : Int)) &&
  (f.cells.getD ((((row : Int) + d.1).toNat) * f.cols + ((col : Int) + d.2).toNat) EMPTY == MINE)

/-- The count the spec describes: the number of deltas
`(dr, dc) ∈ {-1,0,1}² \ {(0,0)}` whose target lies inside the grid and holds a
mine. -/
def specNeighborCount (f : Field) (row col : Nat) : Nat :=
  neighborDeltas.countP (specNeighborP f row col)

/-- A corner cell: both coordinates on the border. -/
def isCorner (f : Field) (row col : Nat) : Prop :=
  (row = 0 ∨ row = f.rows - 1) ∧ (col = 0 ∨ col = f.cols - 1)

/-- An edge cell: on the border but not a corner. -/
def isEdgeCell (f : Field) (row col : Nat) : Prop :=
  (row = 0 ∨ row = f.rows - 1 ∨ col = 0 ∨ col = f.cols - 1) ∧ ¬ isCorner f row col

instance (f : Field) (row col : Nat) : Decidable (isCorner f row col) := by
  unfold isCorner; infer_instance

instance (f : Field) (row col : Nat) : Decidable (isEdgeCell f row col) := by
  unfold isEdgeCell; infer_instance

/-- Structural well-formedness of a field as allocated by `fieldResize`:
positive dimensions, both buffers of length `rows * cols`, cursor in range. -/
def Wf (f : Field) : Prop :=
  1 ≤ f.rows ∧ 1 ≤ f.cols ∧
  f.cells.length = f.rows * f.cols ∧ f.states.length = f.rows * f.cols ∧
  f.cursorRow < f.rows ∧ f.cursorCol < f.cols

/-- No cell is `OPEN` (the situation before the first open of a game). -/
def AllNonOpen (f : Field) : Prop := ∀ st ∈ f.states, st ≠ OPEN

/-- Invariant of every state produced by an arbitrary action sequence:
well-formedness, no open cell before the first open, and — as long as no mine
has been opened — agreement of the `numClosed` counter with the number of
non-`OPEN` cells. -/
def InvAny (s : GameState) : Prop :=
  Wf s.field ∧ (s.first = true → AllNonOpen s.field) ∧
  (isMineOpen s.field = false → s.field.numClosed = countNonOpen s.field)

/-- Invariant of every state at which `performAction` is invoked during a
game: additionally no mine is open and the win check has not fired yet. -/
def InvR (s : GameState) : Prop :=
  InvAny s ∧ isMineOpen s.field = false ∧ s.field.numClosed ≠ s.field.numMines

/-! ### Concrete states used by witnesses and counterexamples -/

/-- 4×4 board after `generateAtCursor` accepted the sample putting the 8 mines
of `p = 50` on rows 2 and 3 (cursor at `(0, 0)`). -/
def exG44 : Field := generateMines (initField 4 4) 50
  [(2, 0), (2, 1), (2, 2), (2, 3), (3, 0), (3, 1), (3, 2), (3, 3)]

/-- `exG44` after opening `(0, 0)`. -/
def exG44a : Field := { exG44 with states := (initField 4 4).states.set 0 OPEN, numClosed := 15 }

/-- `exG44a` after moving down once. -/
def exG44b : Field := { exG44a with cursorRow := 1 }

/-- `exG44b` after moving down once. -/
def exG44c : Field := { exG44b with cursorRow := 2 }

/-- `exG44c` after opening the mine at `(2, 0)`: the mine branch opens the
cursor cell, decrements `numClosed` and reveals all mines. -/
def exG44d : Field := revealMines { exG44c with states := exG44c.states.set 8 OPEN, numClosed := 14 }

/-- 2×2 board, `p = 0`, after opening `(0, 0)`. -/
def ex22a : Field :=
  { rows := 2, cols := 2
    cells := [EMPTY, EMPTY, EMPTY, EMPTY]
    states := [OPEN, CLOSED, CLOSED, CLOSED]
    cursorRow := 0, cursorCol := 0, numMines := 0, numClosed := 3 }

/-- `ex22a` after moving right. -/
def ex22b : Field := { ex22a with cursorCol := 1 }

/-- `ex22b` after opening `(0, 1)`. -/
def ex22c : Field := { ex22b with states := [OPEN, OPEN, CLOSED, CLOSED], numClosed := 2 }

/-- `ex22c` after moving down. -/
def ex22d : Field := { ex22c with cursorRow := 1 }

/-- `ex22d` after opening `(1, 1)`. -/
def ex22e : Field := { ex22d with states := [OPEN, OPEN, CLOSED, OPEN], numClosed := 1 }

/-- `ex22e` after moving left. -/
def ex22f : Field := { ex22e with cursorCol := 0 }

/-- `ex22f` after opening `(1, 0)`: all four cells open. -/
def ex22g : Field := { ex22f with states := [OPEN, OPEN, OPEN, OPEN], numClosed := 0 }

/-- 3×3 board with the cursor cell `(0, 0)` flagged before the first open. -/
def exFlag33 : Field := { initField 3 3 with states := (List.replicate 9 CLOSED).set 0 FLAGGED }

/-- `exFlag33` after a first open: `generateAtCursor` accepted the sample
`[(0, 2), (2, 2)]` for `p = 25` (2 mines), and `openAtCursor` was a no-op on
the flagged cursor. -/
def exFlag33g : Field := generateMines exFlag33 25 [(0, 2), (2, 2)]

/-- 3×3 board whose only non-mine cell in the top two rows is the edge cell
`(0, 1)`: all five in-grid neighbors of `(0, 1)` are mines. -/
def exEdge33 : Field :=
  { rows := 3, cols := 3
    cells := [MINE, EMPTY, MINE, MINE, MINE, MINE, EMPTY, EMPTY, EMPTY]
    states := List.replicate 9 CLOSED
    cursorRow := 0, cursorCol := 0, numMines := 5, numClosed := 9 }

/-- 2×2 board with mines at `(0, 0)` and `(1, 1)`, all closed, placement
already done (`first = false`). -/
def exMine22 : Field :=
  { rows := 2, cols := 2
    cells := [MINE, EMPTY, EMPTY, MINE]
    states := [CLOSED, CLOSED, CLOSED, CLOSED]
    cursorRow := 0, cursorCol := 0, numMines := 2, numClosed := 4 }

/-- 1×1 board with its single cell open (for the flag-on-open no-op). -/
def exOpen11 : Field :=
  { rows := 1, cols := 1, cells := [EMPTY], states := [OPEN]
    cursorRow := 0, cursorCol := 0, numMines := 0, numClosed := 0 }

/-- 3×3 board, `p = 0`, after a first open at `(0, 0)`. -/
def ex33a : Field :=
  { rows := 3, cols := 3
    cells := List.replicate 9 EMPTY
    states := (List.replicate 9 CLOSED).set 0 OPEN
    cursorRow := 0, cursorCol := 0, numMines := 0, numClosed := 8 }

/-- `initField 2 2` with `(0, 0)` flagged (used by the flag-step witness). -/
def exFlag22 : Field := { initField 2 2 with states := (List.replicate 4 CLOSED).set 0 FLAGGED }

/-- `exMine22` after opening the mine at `(0, 0)` (mine branch of a space). -/
def exMine22d : Field :=
  revealMines { exMine22 with states := exMine22.states.set 0 OPEN, numClosed := 3 }

/-- Two consecutive `flagAtCursor` calls. -/
def flagTwice (f : Field) : Option Field := (flagAtCursor f).bind flagAtCursor

/-- Four consecutive `flagAtCursor` calls. -/
def flagFourTimes (f : Field) : Option Field := (flagTwice f).bind flagTwice

instance (f : Field) : Decidable (Wf f) := by
  unfold Wf; infer_instance

/-! ### Generic list helpers -/

theorem countP_set (p : α → Bool) :
    ∀ (l : List α) (i : Nat) (x : α) (h : i < l.length),
      (l.set i x).countP p + (if p l[i] then 1 else 0)
        = l.countP p + (if p x then 1 else 0)
  | [], i, x, h => by simp at h
  | a :: l, 0, x, h => by
    simp only [List.set_cons_zero, List.countP_cons, List.getElem_cons_zero]
    omega
  | a :: l, i + 1, x, h => by
    have ih := countP_set p l i x (by simpa using h)
    simp only [List.set_cons_succ, List.countP_cons, List.getElem_cons_succ]
    omega

theorem countP_replicate (p : α → Bool) (n : Nat) (a : α) :
    (List.replicate n a).countP p = if p a then n else 0 := by
  induction n with
  | zero => simp
  | succ n ih =>
    simp only [List.replicate_succ, List.countP_cons, ih]
    split <;> omega

theorem getD_set_self (l : List α) (i : Nat) (x d : α) (h : i < l.length) :
    (l.set i x).getD i d = x := by
  rw [List.getD_eq_getElem _ _ (by simpa using h)]
  exact List.getElem_set_self (by simpa using h)

theorem getD_set_ne (l : List α) {i j : Nat} (x d : α) (h : i ≠ j) :
    (l.set i x).getD j d = l.getD j d := by
  rcases Nat.lt_or_ge j l.length with hj | hj
  · rw [List.getD_eq_getElem _ _ (by simpa using hj), List.getD_eq_getElem _ _ hj]
    exact List.getElem_set_ne h _
  · rw [List.getD_eq_default _ _ (by simpa using hj), List.getD_eq_default _ _ hj]

theorem getD_of_get?_eq (l : List α) {i : Nat} {a : α} (d : α) (h : l.get? i = some a) :
    l.getD i d = a := by
  rw [List.getD_eq_getD_get?, h]
  rfl

theorem lt_length_of_get?_eq {l : List α} {i : Nat} {a : α} (h : l.get? i = some a) :
    i < l.length :=
  (List.get?_eq_some.mp h).fst

theorem get?_eq_of_getD {l : List α} {i : Nat} (d : α) (h : i < l.length) :
    l.get? i = some (l.getD i d) := by
  rw [List.getD_eq_getElem _ _ h]
  exact List.get?_eq_get h

/-- Row-major index arithmetic: in-range coordinates give an in-range index. -/
theorem rowMajor_lt {r c rows cols : Nat} (hr : r < rows) (hc : c < cols) :
    r * cols + c < rows * cols :=
  calc r * cols + c < r * cols + cols := by omega
    _ = (r + 1) * cols := by ring
    _ ≤ rows * cols := Nat.mul_le_mul_right _ (by omega)

/-- Row-major indexing is injective on in-range coordinates. -/
theorem rowMajor_inj {r1 c1 r2 c2 cols : Nat} (hc1 : c1 < cols) (hc2 : c2 < cols)
    (h : r1 * cols + c1 = r2 * cols + c2) : r1 = r2 ∧ c1 = c2 := by
  have h1 : (cols * r1 + c1) % cols = (cols * r2 + c2) % cols := by
    rw [Nat.mul_comm r1 cols, Nat.mul_comm r2 cols] at h
    rw [h]
  rw [Nat.mul_add_mod, Nat.mul_add_mod, Nat.mod_eq_of_lt hc1, Nat.mod_eq_of_lt hc2] at h1
  subst h1
  have hcols : 0 < cols := by omega
  have h2 : r1 * cols = r2 * cols := by omega
  exact ⟨Nat.eq_of_mul_eq_mul_right hcols h2, rfl⟩

/-! ### Accessor inversion lemmas -/

theorem stateAtIndex_some {f : Field} {row col : Nat} {st : CellState}
    (h : stateAtIndex f row col = some st) :
    row < f.rows ∧ col < f.cols ∧ row * f.cols + col < f.states.length ∧
      f.states.getD (row * f.cols + col) CLOSED = st := by
  unfold stateAtIndex at h
  split at h
  · exact absurd h (by simp)
  · next hb =>
    push_neg at hb
    exact ⟨hb.1, hb.2, lt_length_of_get?_eq h, getD_of_get?_eq _ _ h⟩

theorem cellAtIndex_some {f : Field} {row col : Nat} {c : Cell}
    (h : cellAtIndex f row col = some c) :
    row < f.rows ∧ col < f.cols ∧ row * f.cols + col < f.cells.length ∧
      f.cells.getD (row * f.cols + col) EMPTY = c := by
  unfold cellAtIndex at h
  split at h
  · exact absurd h (by simp)
  · next hb =>
    push_neg at hb
    exact ⟨hb.1, hb.2, lt_length_of_get?_eq h, getD_of_get?_eq _ _ h⟩

theorem stateAtIndex_of_wf {f : Field} (hlen : f.states.length = f.rows * f.cols)
    {row col : Nat} (hr : row < f.rows) (hc : col < f.cols) :
    stateAtIndex f row col = some (f.states.getD (row * f.cols + col) CLOSED) := by
  unfold stateAtIndex
  rw [if_neg (by omega)]
  exact get?_eq_of_getD _ (by rw [hlen]; exact rowMajor_lt hr hc)

theorem cellAtIndex_of_wf {f : Field} (hlen : f.cells.length = f.rows * f.cols)
    {row col : Nat} (hr : row < f.rows) (hc : col < f.cols) :
    cellAtIndex f row col = some (f.cells.getD (row * f.cols + col) EMPTY) := by
  unfold cellAtIndex
  rw [if_neg (by omega)]
  exact get?_eq_of_getD _ (by rw [hlen]; exact rowMajor_lt hr hc)

/-! ### Characterizations of `isMineOpen` and congruence lemmas -/

theorem isMineOpen_iff (f : Field) :
    isMineOpen f = true ↔
      ∃ i, i < f.rows * f.cols ∧ f.cells.getD i EMPTY = MINE ∧
        f.states.getD i CLOSED = OPEN := by
  simp [isMineOpen, List.any_eq_true, List.mem_range, Bool.and_eq_true, beq_iff_eq]

theorem isMineOpen_eq_false_iff (f : Field) :
    isMineOpen f = false ↔
      ∀ i, i < f.rows * f.cols → f.cells.getD i EMPTY = MINE →
        f.states.getD i CLOSED ≠ OPEN := by
  rw [← Bool.not_eq_true, isMineOpen_iff]
  push_neg
  rfl

theorem isMineOpen_false_of_allNonOpen {f : Field} (h : AllNonOpen f) :
    isMineOpen f = false := by
  rw [isMineOpen_eq_false_iff]
  intro i hi _
  rcases Nat.lt_or_ge i f.states.length with hl | hl
  · have hmem : f.states.getD i CLOSED ∈ f.states := by
      rw [List.getD_eq_getElem _ _ hl]
      exact List.getElem_mem _
    exact h _ hmem
  · rw [List.getD_eq_default _ _ hl]
    simp

theorem cellAtIndex_congr {f f' : Field} (hrows : f'.rows = f.rows)
    (hcols : f'.cols = f.cols) (hcells : f'.cells = f.cells) (row col : Nat) :
    cellAtIndex f' row col = cellAtIndex f row col := by
  unfold cellAtIndex
  rw [hrows, hcols, hcells]

theorem countNeighborMinesAux_congr {f f' : Field} (hrows : f'.rows = f.rows)
    (hcols : f'.cols = f.cols) (hcells : f'.cells = f.cells) (row col : Nat) :
    ∀ l, countNeighborMinesAux f' row col l = countNeighborMinesAux f row col l
  | [] => rfl
  | d :: rest => by
    simp only [countNeighborMinesAux]
    rw [hrows, hcols, cellAtIndex_congr hrows hcols hcells,
      countNeighborMinesAux_congr hrows hcols hcells row col rest]

theorem countNeighborMines_congr {f f' : Field} (hrows : f'.rows = f.rows)
    (hcols : f'.cols = f.cols) (hcells : f'.cells = f.cells) (row col : Nat) :
    countNeighborMines f' row col = countNeighborMines f row col :=
  countNeighborMinesAux_congr hrows hcols hcells row col neighborDeltas

theorem isMineOpen_congr {f f' : Field} (hrows : f'.rows = f.rows)
    (hcols : f'.cols = f.cols) (hcells : f'.cells = f.cells)
    (hstates : f'.states = f.states) :
    isMineOpen f' = isMineOpen f := by
  unfold isMineOpen
  rw [hrows, hcols, hcells, hstates]

theorem countNonOpen_congr {f f' : Field} (hstates : f'.states = f.states) :
    countNonOpen f' = countNonOpen f := by
  unfold countNonOpen
  rw [hstates]

/-- Updating one cell's state changes `isMineOpen` in neither direction as
long as neither the old nor the new state puts an open mine there. -/
theorem isMineOpen_set_congr {f f' : Field} {idx : Nat} {st : CellState}
    (hrows : f'.rows = f.rows) (hcols : f'.cols = f.cols) (hcells : f'.cells = f.cells)
    (hstates : f'.states = f.states.set idx st)
    (hold : f.cells.getD idx EMPTY = MINE → f.states.getD idx CLOSED ≠ OPEN)
    (hnew : f.cells.getD idx EMPTY = MINE → st ≠ OPEN) :
    isMineOpen f' = isMineOpen f := by
  cases hmo : isMineOpen f with
  | false =>
    rw [isMineOpen_eq_false_iff] at hmo ⊢
    intro i hi hc
    rw [hrows, hcols] at hi
    rw [hcells] at hc
    rw [hstates]
    by_cases hij : idx = i
    · subst hij
      rcases Nat.lt_or_ge idx f.states.length with hl | hl
      · rw [getD_set_self _ _ _ _ hl]
        exact hnew hc
      · rw [List.set_eq_of_length_le hl]
        exact hmo idx hi hc
    · rw [getD_set_ne _ _ _ hij]
      exact hmo i hi hc
  | true =>
    rw [isMineOpen_iff] at hmo ⊢
    obtain ⟨i, hi, hc, hs⟩ := hmo
    have hij : idx ≠ i := by
      intro h
      subst h
      exact hold hc hs
    refine ⟨i, ?_, ?_, ?_⟩
    · rw [hrows, hcols]; exact hi
    · rw [hcells]; exact hc
    · rw [hstates, getD_set_ne _ _ _ hij]; exact hs

theorem revealMines_states_getD {f : Field} (hlc : f.cells.length = f.rows * f.cols)
    (hls : f.states.length = f.rows * f.cols) {i : Nat} (hi : i < f.rows * f.cols) :
    (revealMines f).states.getD i CLOSED
      = if f.cells.getD i EMPTY = MINE then OPEN else f.states.getD i CLOSED := by
  unfold revealMines
  have hi1 : i < f.cells.length := by omega
  have hi2 : i < f.states.length := by omega
  have hz : i < (List.zipWith (fun c s => if c = MINE then OPEN else s) f.cells f.states).length := by
    rw [List.length_zipWith]
    omega
  rw [List.getD_eq_getElem _ _ hz, List.getElem_zipWith,
    List.getD_eq_getElem _ _ hi1, List.getD_eq_getElem _ _ hi2]

theorem revealMines_states_length {f : Field} (hlc : f.cells.length = f.rows * f.cols)
    (hls : f.states.length = f.rows * f.cols) :
    (revealMines f).states.length = f.rows * f.cols := by
  unfold revealMines
  rw [List.length_zipWith]
  omega

/-! ### Evaluation lemmas for the state-changing operations -/

theorem openAtCursor_closed {f : Field}
    (hst : stateAtIndex f f.cursorRow f.cursorCol = some CLOSED) :
    openAtCursor f = (cellAtIndex f f.cursorRow f.cursorCol).map
      (fun c => ({ f with states := f.states.set (f.cursorRow * f.cols + f.cursorCol) OPEN
                          numClosed := f.numClosed - 1 }, c)) := by
  unfold openAtCursor
  rw [hst]
  have hcc : cellAtIndex
      { f with states := f.states.set (f.cursorRow * f.cols + f.cursorCol) OPEN
               numClosed := f.numClosed - 1 } f.cursorRow f.cursorCol
      = cellAtIndex f f.cursorRow f.cursorCol := cellAtIndex_congr rfl rfl rfl _ _
  simp only [hcc]
  cases cellAtIndex f f.cursorRow f.cursorCol <;> rfl

theorem openAtCursor_notClosed {f : Field} {st : CellState}
    (hst : stateAtIndex f f.cursorRow f.cursorCol = some st) (hne : st ≠ CLOSED) :
    openAtCursor f = some (f, EMPTY) := by
  unfold openAtCursor
  rw [hst]
  cases st with
  | OPEN => rfl
  | CLOSED => exact absurd rfl hne
  | FLAGGED => rfl

theorem flagAtCursor_closed {f : Field}
    (hst : stateAtIndex f f.cursorRow f.cursorCol = some CLOSED) :
    flagAtCursor f
      = some { f with states := f.states.set (f.cursorRow * f.cols + f.cursorCol) FLAGGED } := by
  unfold flagAtCursor
  rw [hst]

theorem flagAtCursor_flagged {f : Field}
    (hst : stateAtIndex f f.cursorRow f.cursorCol = some FLAGGED) :
    flagAtCursor f
      = some { f with states := f.states.set (f.cursorRow * f.cols + f.cursorCol) CLOSED } := by
  unfold flagAtCursor
  rw [hst]

theorem flagAtCursor_open {f : Field}
    (hst : stateAtIndex f f.cursorRow f.cursorCol = some OPEN) :
    flagAtCursor f = some f := by
  unfold flagAtCursor
  rw [hst]

theorem setMines_length (cols : Nat) :
    ∀ (sample : List (Nat × Nat)) (cells : List Cell),
      (setMines cols sample cells).length = cells.length
  | [], _ => rfl
  | (r, c) :: rest, cells => by
    rw [setMines, setMines_length cols rest, List.length_set]

theorem generateMines_cells_length (f : Field) (p : Nat) (sample : List (Nat × Nat)) :
    (generateMines f p sample).cells.length = f.rows * f.cols := by
  show (setMines f.cols sample (List.replicate (f.rows * f.cols) EMPTY)).length = _
  rw [setMines_length, List.length_replicate]

theorem wf_generateMines {f : Field} (hwf : Wf f) (p : Nat) (sample : List (Nat × Nat)) :
    Wf (generateMines f p sample) := by
  obtain ⟨h1, h2, _, h4, h5, h6⟩ := hwf
  exact ⟨h1, h2, generateMines_cells_length f p sample, h4, h5, h6⟩

/-! ### `size_t` delta arithmetic -/

theorem szW_eq : szW = 18446744073709551616 := by norm_num [szW]

/-- When the true integer target coordinate is in range, `addDelta` computes
it exactly (no wraparound). -/
theorem addDelta_in {x n : Nat} {d : Int} (_hx : x < n) (hn : n < szW)
    (h0 : 0 ≤ (x : Int) + d) (h1 : (x : Int) + d < (n : Int)) :
    ((addDelta x d : Nat) : Int) = (x : Int) + d ∧ addDelta x d < n := by
  have hsz : szW = 18446744073709551616 := szW_eq
  have hlt : (x : Int) + d < (szW : Int) := by omega
  unfold addDelta
  rw [Int.emod_eq_of_lt h0 hlt]
  omega

/-- When the true integer target coordinate is out of range (negative, or at
least `n`), the wrapped `size_t` value is caught by the `≥ n` guard. -/
theorem addDelta_out {x n : Nat} {d : Int} (hx : x < n) (hn : n < szW)
    (hd : d = -1 ∨ d = 0 ∨ d = 1)
    (h : ¬ (0 ≤ (x : Int) + d ∧ (x : Int) + d < (n : Int))) :
    n ≤ addDelta x d := by
  have hsz : szW = 18446744073709551616 := szW_eq
  rcases hd with rfl | rfl | rfl
  · by_cases hx0 : x = 0
    · subst hx0
      unfold addDelta
      have hm : ((0 : Nat) : Int) + -1 = -1 := by omega
      rw [hm]
      have he : (-1 : Int) % (szW : Int) = 18446744073709551615 := by
        rw [show ((szW : Nat) : Int) = 18446744073709551616 by omega]
        decide
      rw [he]
      omega
    · exfalso
      exact h ⟨by omega, by omega⟩
  · exfalso
    exact h ⟨by omega, by omega⟩
  · have h1 : (n : Int) ≤ (x : Int) + 1 := by
      rcases not_and_or.mp h with h' | h'
      · exact absurd (by omega) h'
      · omega
    unfold addDelta
    rw [Int.emod_eq_of_lt (by omega) (by omega)]
    omega

/-! ### The neighbor count computes the spec-level count -/

theorem countNeighborMinesAux_eq_spec {f : Field} {row col : Nat}
    (hr : row < f.rows) (hc : col < f.cols) (hrW : f.rows < szW) (hcW : f.cols < szW)
    (hlen : f.cells.length = f.rows * f.cols) :
    ∀ l : List (Int × Int),
      (∀ d ∈ l, (d.1 = -1 ∨ d.1 = 0 ∨ d.1 = 1) ∧ (d.2 = -1 ∨ d.2 = 0 ∨ d.2 = 1)) →
      countNeighborMinesAux f row col l = some (l.countP (specNeighborP f row col))
  | [], _ => by simp [countNeighborMinesAux]
  | d :: rest, hmem => by
    have hd := hmem d (by simp)
    have ih := countNeighborMinesAux_eq_spec hr hc hrW hcW hlen rest
      (fun d' h' => hmem d' (List.mem_cons_of_mem _ h'))
    simp only [countNeighborMinesAux]
    rw [List.countP_cons]
    by_cases hinr : 0 ≤ (row : Int) + d.1 ∧ (row : Int) + d.1 < (f.rows : Int)
    · by_cases hinc : 0 ≤ (col : Int) + d.2 ∧ (col : Int) + d.2 < (f.cols : Int)
      · obtain ⟨hreq, hrlt⟩ := addDelta_in hr hrW hinr.1 hinr.2
        obtain ⟨hceq, hclt⟩ := addDelta_in hc hcW hinc.1 hinc.2
        rw [if_neg (by omega)]
        rw [cellAtIndex_of_wf hlen hrlt hclt, ih]
        have hidx : ((row : Int) + d.1).toNat * f.cols + ((col : Int) + d.2).toNat
            = addDelta row d.1 * f.cols + addDelta col d.2 := by
          have e1 : ((row : Int) + d.1).toNat = addDelta row d.1 := by omega
          have e2 : ((col : Int) + d.2).toNat = addDelta col d.2 := by omega
          rw [e1, e2]
        have hP : specNeighborP f row col d
            = (f.cells.getD (addDelta row d.1 * f.cols + addDelta col d.2) EMPTY == MINE) := by
          unfold specNeighborP
          rw [decide_eq_true hinr.1, decide_eq_true hinr.2, decide_eq_true hinc.1,
            decide_eq_true hinc.2, hidx]
          simp
        rw [hP]
        by_cases hm : f.cells.getD (addDelta row d.1 * f.cols + addDelta col d.2) EMPTY = MINE
        · rw [List.getD_eq_getD_get?, List.get?_eq_getElem?] at hm
          simp [hm]
        · rw [List.getD_eq_getD_get?, List.get?_eq_getElem?] at hm
          simp [hm]
      · have hP : specNeighborP f row col d = false := by
          unfold specNeighborP
          rcases not_and_or.mp hinc with h' | h'
          · rw [decide_eq_false h']
            simp
          · rw [decide_eq_false h']
            simp
        rw [if_pos (Or.inl (addDelta_out hc hcW hd.2 hinc)), ih, hP]
        simp
    · have hP : specNeighborP f row col d = false := by
        unfold specNeighborP
        rcases not_and_or.mp hinr with h' | h'
        · rw [decide_eq_false h']
          simp
        · rw [decide_eq_false h']
          simp
      rw [if_pos (Or.inr (addDelta_out hr hrW hd.1 hinr)), ih, hP]
      simp

theorem countNeighborMines_eq_spec {f : Field} {row col : Nat}
    (hr : row < f.rows) (hc : col < f.cols) (hrW : f.rows < szW) (hcW : f.cols < szW)
    (hlen : f.cells.length = f.rows * f.cols) :
    countNeighborMines f row col = some (specNeighborCount f row col) :=
  countNeighborMinesAux_eq_spec hr hc hrW hcW hlen neighborDeltas (by decide)

/-! ### Counting the mines placed by `generateMines` -/

theorem getD_replicate (n i : Nat) (a : α) : (List.replicate n a).getD i a = a := by
  rcases Nat.lt_or_ge i n with hi | hi
  · rw [List.getD_eq_getElem _ _ (by simpa using hi)]
    simp
  · rw [List.getD_eq_default _ _ (by simpa using hi)]

theorem countMines_set_fresh {cells : List Cell} {i : Nat} (hi : i < cells.length)
    (hfresh : cells.getD i EMPTY ≠ MINE) :
    countMines (cells.set i MINE) = countMines cells + 1 := by
  have h := countP_set (fun c => c == MINE) cells i MINE hi
  rw [List.getD_eq_getElem _ _ hi] at hfresh
  have hb : (cells[i] == MINE) = false := by
    simp [hfresh]
  rw [hb] at h
  simp at h
  unfold countMines
  omega

theorem countMines_setMines {rows cols : Nat} :
    ∀ (sample : List (Nat × Nat)) (cells : List Cell),
      cells.length = rows * cols →
      (∀ rc ∈ sample, rc.1 < rows ∧ rc.2 < cols) →
      sample.Nodup →
      (∀ rc ∈ sample, cells.getD (rc.1 * cols + rc.2) EMPTY ≠ MINE) →
      countMines (setMines cols sample cells) = countMines cells + sample.length
  | [], cells, _, _, _, _ => by simp [setMines]
  | (r, c) :: rest, cells, hlen, hrange, hnodup, hfresh => by
    have hr : r < rows := (hrange _ (List.mem_cons_self _ _)).1
    have hc : c < cols := (hrange _ (List.mem_cons_self _ _)).2
    have hidx : r * cols + c < cells.length := by
      rw [hlen]
      exact rowMajor_lt hr hc
    have hni : (r, c) ∉ rest := (List.nodup_cons.mp hnodup).1
    have hfresh' : ∀ rc ∈ rest,
        (cells.set (r * cols + c) MINE).getD (rc.1 * cols + rc.2) EMPTY ≠ MINE := by
      intro rc hmem
      have hidxne : r * cols + c ≠ rc.1 * cols + rc.2 := by
        intro he
        obtain ⟨h1, h2⟩ := rowMajor_inj hc (hrange rc (List.mem_cons_of_mem _ hmem)).2 he
        apply hni
        have : (r, c) = rc := by
          cases rc
          simp only [Prod.mk.injEq]
          exact ⟨h1, h2⟩
        rw [this]
        exact hmem
      rw [getD_set_ne _ _ _ hidxne]
      exact hfresh rc (List.mem_cons_of_mem _ hmem)
    have ih := countMines_setMines rest (cells.set (r * cols + c) MINE)
      (by rw [List.length_set]; exact hlen)
      (fun rc h => hrange rc (List.mem_cons_of_mem _ h))
      (List.nodup_cons.mp hnodup).2 hfresh'
    rw [setMines, ih, countMines_set_fresh hidx (hfresh _ (List.mem_cons_self _ _))]
    simp only [List.length_cons]
    omega

theorem countMines_replicate (n : Nat) : countMines (List.replicate n EMPTY) = 0 := by
  unfold countMines
  rw [countP_replicate]
  rfl

/-- The result of `generateMines` on an accepted sample: exactly
`⌊rows · cols · p / 100⌋` mines on the board, matching the counter. -/
theorem generateMines_mine_count {f : Field} {p : Nat} {sample : List (Nat × Nat)}
    (hvs : ValidSample f p sample) :
    countMines (generateMines f p sample).cells = f.rows * f.cols * p / 100 ∧
    (generateMines f p sample).numMines = f.rows * f.cols * p / 100 := by
  obtain ⟨_, hlen, hrange, hnodup⟩ := hvs
  refine ⟨?_, rfl⟩
  show countMines (setMines f.cols sample (List.replicate (f.rows * f.cols) EMPTY)) = _
  rw [countMines_setMines sample _ (by simp) hrange hnodup
    (fun rc _ => by rw [getD_replicate]; simp)]
  rw [countMines_replicate, hlen]
  omega

/-! ### Evaluating `performActionCore` on a space action -/

theorem performSpace_mine {g f1 : Field} (hop : openAtCursor g = some (f1, MINE)) :
    performActionCore g .space = some (revealMines f1, false) := by
  unfold performActionCore
  rw [hop]

theorem performSpace_empty {g f1 : Field} (hop : openAtCursor g = some (f1, EMPTY)) :
    performActionCore g .space = some (finalizeAction f1) := by
  unfold performActionCore
  rw [hop]

/-! ### One-step case analysis -/

/-- Effect of the space branch of `performAction` on a well-formed field `g`
(the field right after mine placement on a first open, or the current field
otherwise): either no mine branch was taken — then the continue flag is the
`numClosed ≠ numMines` check and the open-mine status and counter agreement
are preserved — or the mine branch was taken and a mine is now open. -/
theorem space_analysis {g f' : Field} {r : Bool} (hwf : Wf g)
    (h : performActionCore g .space = some (f', r)) :
    Wf f' ∧
    ((isMineOpen f' = isMineOpen g ∧ r = !(f'.numClosed == f'.numMines) ∧
        (g.numClosed = countNonOpen g → f'.numClosed = countNonOpen f')) ∨
      (r = false ∧ isMineOpen f' = true)) := by
  obtain ⟨hr1, hc1, hlc, hls, hcr, hcc⟩ := hwf
  have hst := stateAtIndex_of_wf hls hcr hcc
  have hidx : g.cursorRow * g.cols + g.cursorCol < g.rows * g.cols := rowMajor_lt hcr hcc
  cases hstv : g.states.getD (g.cursorRow * g.cols + g.cursorCol) CLOSED with
  | OPEN =>
    rw [hstv] at hst
    have hop := openAtCursor_notClosed hst (by simp)
    rw [performSpace_empty hop] at h
    injection h with h1
    unfold finalizeAction at h1
    injection h1 with hf hr
    subst hf
    subst hr
    exact ⟨⟨hr1, hc1, hlc, hls, hcr, hcc⟩, Or.inl ⟨rfl, rfl, fun hc => hc⟩⟩
  | FLAGGED =>
    rw [hstv] at hst
    have hop := openAtCursor_notClosed hst (by simp)
    rw [performSpace_empty hop] at h
    injection h with h1
    unfold finalizeAction at h1
    injection h1 with hf hr
    subst hf
    subst hr
    exact ⟨⟨hr1, hc1, hlc, hls, hcr, hcc⟩, Or.inl ⟨rfl, rfl, fun hc => hc⟩⟩
  | CLOSED =>
    rw [hstv] at hst
    have hopen := openAtCursor_closed hst
    have hcell := cellAtIndex_of_wf hlc hcr hcc
    have hidxs : g.cursorRow * g.cols + g.cursorCol < g.states.length := by
      rw [hls]
      exact hidx
    have hcnt := countP_set (fun st => !(st == OPEN)) g.states
      (g.cursorRow * g.cols + g.cursorCol) OPEN hidxs
    rw [← List.getD_eq_getElem _ CLOSED hidxs, hstv] at hcnt
    simp at hcnt
    cases hcv : g.cells.getD (g.cursorRow * g.cols + g.cursorCol) EMPTY with
    | EMPTY =>
      rw [hcv] at hcell
      have hop : openAtCursor g = some
          ({ g with states := g.states.set (g.cursorRow * g.cols + g.cursorCol) OPEN,
                    numClosed := g.numClosed - 1 }, EMPTY) := by
        rw [hopen, hcell]
        rfl
      rw [performSpace_empty hop] at h
      injection h with h1
      unfold finalizeAction at h1
      injection h1 with hf hr
      subst hf
      subst hr
      refine ⟨⟨hr1, hc1, hlc, by rw [List.length_set]; exact hls, hcr, hcc⟩,
        Or.inl ⟨?_, rfl, ?_⟩⟩
      · exact isMineOpen_set_congr rfl rfl rfl rfl
          (fun _ => by rw [hstv]; simp) (fun hm => absurd (hcv ▸ hm) (by simp))
      · intro hc
        show g.numClosed - 1 = (g.states.set _ OPEN).countP _
        unfold countNonOpen at hc
        omega
    | MINE =>
      rw [hcv] at hcell
      have hop : openAtCursor g = some
          ({ g with states := g.states.set (g.cursorRow * g.cols + g.cursorCol) OPEN,
                    numClosed := g.numClosed - 1 }, MINE) := by
        rw [hopen, hcell]
        rfl
      rw [performSpace_mine hop] at h
      injection h with h1
      injection h1 with hf hr
      subst hf
      subst hr
      have hlc1 : ({ g with states := g.states.set (g.cursorRow * g.cols + g.cursorCol) OPEN, numClosed := g.numClosed - 1 } : Field).cells.length = g.rows * g.cols := hlc
      have hls1 : ({ g with states := g.states.set (g.cursorRow * g.cols + g.cursorCol) OPEN, numClosed := g.numClosed - 1 } : Field).states.length = g.rows * g.cols := by
        rw [List.length_set]
        exact hls
      refine ⟨⟨hr1, hc1, hlc1, revealMines_states_length hlc1 hls1, hcr, hcc⟩,
        Or.inr ⟨rfl, ?_⟩⟩
      rw [isMineOpen_iff]
      refine ⟨g.cursorRow * g.cols + g.cursorCol, hidx, hcv, ?_⟩
      rw [revealMines_states_getD hlc1 hls1 hidx]
      rw [if_pos hcv]

/-- One `performAction` step from a well-formed state with no premature open
cell: the step preserves well-formedness and the pre-first-open discipline,
and either no mine branch was taken (continue flag = the `numClosed ≠
numMines` check; open-mine status and counter agreement preserved) or the
mine branch was taken (`false` returned, a mine now open). -/
theorem step_analysis {p : Nat} {s : GameState} {a : Action} {s' : GameState} {r : Bool}
    (hwf : Wf s.field) (hfirst : s.first = true → AllNonOpen s.field)
    (hstep : Step p s a s' r) :
    Wf s'.field ∧ (s'.first = true → AllNonOpen s'.field) ∧
    ((isMineOpen s'.field = isMineOpen s.field ∧
        r = !(s'.field.numClosed == s'.field.numMines) ∧
        (s.field.numClosed = countNonOpen s.field →
          s'.field.numClosed = countNonOpen s'.field)) ∨
      (r = false ∧ isMineOpen s'.field = true)) := by
  cases hstep with
  | spaceFirst g f' r0 hf hgen hpa =>
    obtain ⟨sample, hvs, hgeq, hcnm, hcellg⟩ := hgen
    have hwg : Wf g := by
      rw [hgeq]
      exact wf_generateMines hwf p sample
    have hall : AllNonOpen s.field := hfirst hf
    have hallg : AllNonOpen g := by
      rw [hgeq]
      exact hall
    obtain ⟨hwf', hrest⟩ := space_analysis hwg hpa
    refine ⟨hwf', by intro hh; simp at hh, ?_⟩
    rcases hrest with ⟨hmo, hr, hcount⟩ | hloss
    · left
      refine ⟨?_, hr, ?_⟩
      · show isMineOpen f' = isMineOpen s.field
        rw [hmo, isMineOpen_false_of_allNonOpen hallg, isMineOpen_false_of_allNonOpen hall]
      · intro hc
        apply hcount
        rw [hgeq]
        exact hc
    · exact Or.inr hloss
  | spaceRest f' r0 hf hpa =>
    obtain ⟨hwf', hrest⟩ := space_analysis hwf hpa
    refine ⟨hwf', by intro hh; simp at hh, ?_⟩
    rcases hrest with ⟨hmo, hr, hcount⟩ | hloss
    · exact Or.inl ⟨hmo, hr, hcount⟩
    · exact Or.inr hloss
  | nonSpace a f' r0 hne hpa =>
    obtain ⟨h1, h2, h3, h4, h5, h6⟩ := hwf
    cases a with
    | space => exact absurd rfl hne
    | up =>
      simp only [performActionCore] at hpa
      injection hpa with hh
      unfold finalizeAction at hh
      injection hh with hfe hre
      subst hfe
      subst hre
      refine ⟨⟨h1, h2, h3, h4, ?_, h6⟩, fun hf => hfirst hf, Or.inl ⟨rfl, rfl, fun hc => hc⟩⟩
      show (if 0 < s.field.cursorRow then s.field.cursorRow - 1 else s.field.cursorRow) < s.field.rows
      split <;> omega
    | down =>
      simp only [performActionCore] at hpa
      injection hpa with hh
      unfold finalizeAction at hh
      injection hh with hfe hre
      subst hfe
      subst hre
      refine ⟨⟨h1, h2, h3, h4, ?_, h6⟩, fun hf => hfirst hf, Or.inl ⟨rfl, rfl, fun hc => hc⟩⟩
      show (if s.field.cursorRow < s.field.rows - 1 then s.field.cursorRow + 1 else s.field.cursorRow) < s.field.rows
      split <;> omega
    | left =>
      simp only [performActionCore] at hpa
      injection hpa with hh
      unfold finalizeAction at hh
      injection hh with hfe hre
      subst hfe
      subst hre
      refine ⟨⟨h1, h2, h3, h4, h5, ?_⟩, fun hf => hfirst hf, Or.inl ⟨rfl, rfl, fun hc => hc⟩⟩
      show (if 0 < s.field.cursorCol then s.field.cursorCol - 1 else s.field.cursorCol) < s.field.cols
      split <;> omega
    | right =>
      simp only [performActionCore] at hpa
      injection hpa with hh
      unfold finalizeAction at hh
      injection hh with hfe hre
      subst hfe
      subst hre
      refine ⟨⟨h1, h2, h3, h4, h5, ?_⟩, fun hf => hfirst hf, Or.inl ⟨rfl, rfl, fun hc => hc⟩⟩
      show (if s.field.cursorCol < s.field.cols - 1 then s.field.cursorCol + 1 else s.field.cursorCol) < s.field.cols
      split <;> omega
    | other =>
      simp only [performActionCore] at hpa
      injection hpa with hh
      unfold finalizeAction at hh
      injection hh with hfe hre
      subst hfe
      subst hre
      exact ⟨⟨h1, h2, h3, h4, h5, h6⟩, fun hf => hfirst hf, Or.inl ⟨rfl, rfl, fun hc => hc⟩⟩
    | flag =>
      simp only [performActionCore] at hpa
      have hst := stateAtIndex_of_wf h4 h5 h6
      have hidxs : s.field.cursorRow * s.field.cols + s.field.cursorCol < s.field.states.length := by
        rw [h4]
        exact rowMajor_lt h5 h6
      cases hstv : s.field.states.getD (s.field.cursorRow * s.field.cols + s.field.cursorCol) CLOSED with
      | OPEN =>
        rw [hstv] at hst
        rw [flagAtCursor_open hst, Option.map_some'] at hpa
        injection hpa with hh
        unfold finalizeAction at hh
        injection hh with hfe hre
        subst hfe
        subst hre
        exact ⟨⟨h1, h2, h3, h4, h5, h6⟩, fun hf => hfirst hf, Or.inl ⟨rfl, rfl, fun hc => hc⟩⟩
      | CLOSED =>
        rw [hstv] at hst
        rw [flagAtCursor_closed hst, Option.map_some'] at hpa
        injection hpa with hh
        unfold finalizeAction at hh
        injection hh with hfe hre
        subst hfe
        subst hre
        have hcnt := countP_set (fun st => !(st == OPEN)) s.field.states
          (s.field.cursorRow * s.field.cols + s.field.cursorCol) FLAGGED hidxs
        rw [← List.getD_eq_getElem _ CLOSED hidxs, hstv] at hcnt
        simp at hcnt
        refine ⟨⟨h1, h2, h3, by rw [List.length_set]; exact h4, h5, h6⟩, ?_, Or.inl ⟨?_, rfl, ?_⟩⟩
        · intro hf st hmem
          rcases List.mem_or_eq_of_mem_set hmem with hm | hm
          · exact hfirst hf st hm
          · rw [hm]
            simp
        · exact isMineOpen_set_congr rfl rfl rfl rfl
            (fun _ => by rw [hstv]; simp) (fun _ => by simp)
        · intro hc
          show s.field.numClosed = (s.field.states.set _ FLAGGED).countP _
          unfold countNonOpen at hc
          omega
      | FLAGGED =>
        rw [hstv] at hst
        rw [flagAtCursor_flagged hst, Option.map_some'] at hpa
        injection hpa with hh
        unfold finalizeAction at hh
        injection hh with hfe hre
        subst hfe
        subst hre
        have hcnt := countP_set (fun st => !(st == OPEN)) s.field.states
          (s.field.cursorRow * s.field.cols + s.field.cursorCol) CLOSED hidxs
        rw [← List.getD_eq_getElem _ CLOSED hidxs, hstv] at hcnt
        simp at hcnt
        refine ⟨⟨h1, h2, h3, by rw [List.length_set]; exact h4, h5, h6⟩, ?_, Or.inl ⟨?_, rfl, ?_⟩⟩
        · intro hf st hmem
          rcases List.mem_or_eq_of_mem_set hmem with hm | hm
          · exact hfirst hf st hm
          · rw [hm]
            simp
        · exact isMineOpen_set_congr rfl rfl rfl rfl
            (fun _ => by rw [hstv]; simp) (fun _ => by simp)
        · intro hc
          show s.field.numClosed = (s.field.states.set _ CLOSED).countP _
          unfold countNonOpen at hc
          omega

/-! ### Reachability invariants -/

theorem invR_init {rows cols : Nat} (hr : 1 ≤ rows) (hc : 1 ≤ cols) :
    InvR ⟨initField rows cols, true⟩ := by
  have hall : AllNonOpen (initField rows cols) := by
    intro st hmem
    rw [List.eq_of_mem_replicate hmem]
    simp
  have hpos : 0 < rows * cols := Nat.mul_pos hr hc
  refine ⟨⟨⟨hr, hc, by simp [initField], by simp [initField], hr, hc⟩, fun _ => hall, fun _ => ?_⟩,
    isMineOpen_false_of_allNonOpen hall, ?_⟩
  · show rows * cols = (List.replicate (rows * cols) CLOSED).countP _
    rw [countP_replicate]
    simp
  · show rows * cols ≠ 0
    omega

theorem reachable_invR {p : Nat} {s : GameState} (h : Reachable p s) : InvR s := by
  induction h with
  | init rows cols hr hc => exact invR_init hr hc
  | step hreach hstep ih =>
    obtain ⟨⟨hwf, hfi, hcnt⟩, hmo, _⟩ := ih
    obtain ⟨hwf', hfi', hdisj⟩ := step_analysis hwf hfi hstep
    rcases hdisj with ⟨hmo', hr, hcount⟩ | ⟨hr, _⟩
    · have hmo'' := hmo'.trans hmo
      refine ⟨⟨hwf', hfi', fun _ => hcount (hcnt hmo)⟩, hmo'', ?_⟩
      intro he
      rw [he] at hr
      simp at hr
    · exact absurd hr (by simp)

theorem reachableAny_invAny {p : Nat} {s : GameState} (h : ReachableAny p s) : InvAny s := by
  induction h with
  | init rows cols hr hc => exact (invR_init hr hc).1
  | step hreach hstep ih =>
    obtain ⟨hwf, hfi, hcnt⟩ := ih
    obtain ⟨hwf', hfi', hdisj⟩ := step_analysis hwf hfi hstep
    refine ⟨hwf', hfi', ?_⟩
    intro hmo'
    rcases hdisj with ⟨hmoeq, _, hcount⟩ | ⟨_, hmo''⟩
    · exact hcount (hcnt (hmoeq.symm.trans hmo'))
    · rw [hmo''] at hmo'
      cases hmo'

/-! ### Shape of the field after a space action -/

theorem openAtCursor_some_inv {f f1 : Field} {c : Cell}
    (h : openAtCursor f = some (f1, c)) :
    f1 = f ∨ f1 = { f with states := f.states.set (f.cursorRow * f.cols + f.cursorCol) OPEN,
                           numClosed := f.numClosed - 1 } := by
  unfold openAtCursor at h
  split at h
  · exact absurd h (by simp)
  · split at h
    · exact absurd h (by simp)
    · injection h with hh
      injection hh with h1 h2
      right
      exact h1.symm
  · injection h with hh
    injection hh with h1 h2
    left
    exact h1.symm

theorem performSpace_some_inv {g f' : Field} {r : Bool}
    (h : performActionCore g .space = some (f', r)) :
    f'.rows = g.rows ∧ f'.cols = g.cols ∧ f'.cells = g.cells ∧
    f'.cursorRow = g.cursorRow ∧ f'.cursorCol = g.cursorCol ∧
    f'.numMines = g.numMines := by
  simp only [performActionCore] at h
  split at h
  · exact absurd h (by simp)
  · next f1 heq =>
    injection h with hh
    injection hh with h1 h2
    rcases openAtCursor_some_inv heq with h3 | h3 <;>
      (subst h3; rw [← h1]; exact ⟨rfl, rfl, rfl, rfl, rfl, rfl⟩)
  · next f1 heq =>
    injection h with hh
    unfold finalizeAction at hh
    injection hh with h1 h2
    rcases openAtCursor_some_inv heq with h3 | h3 <;>
      (subst h3; rw [← h1]; exact ⟨rfl, rfl, rfl, rfl, rfl, rfl⟩)

/-! ### C1: first-move safety -/

/-- C1: on any grid with `rows · cols ≥ 9` and mine percentage `p ≤ 50`,
after the first space (Open) action the cell at the cursor is `EMPTY` and has
zero mine neighbors — `generateAtCursor` only exits once its placement
satisfies exactly this, and opening the cursor cell changes neither the
contents nor the cursor. -/
theorem c1_first_move_safety {p : Nat} {s s' : GameState} {r : Bool}
    (_hsize : 9 ≤ s.field.rows * s.field.cols) (_hp : p ≤ 50)
    (hfirst : s.first = true) (hstep : Step p s .space s' r) :
    cellAtIndex s'.field s'.field.cursorRow s'.field.cursorCol = some EMPTY ∧
    countNeighborMines s'.field s'.field.cursorRow s'.field.cursorCol = some 0 := by
  cases hstep with
  | spaceFirst g f' r0 hf hgen hpa =>
    obtain ⟨sample, hvs, hgeq, hcnm, c0, hcell, hcne⟩ := hgen
    have hcEMPTY : cellAtIndex g g.cursorRow g.cursorCol = some EMPTY := by
      cases c0 with
      | EMPTY => exact hcell
      | MINE => exact absurd rfl hcne
    obtain ⟨e1, e2, e3, e4, e5, _⟩ := performSpace_some_inv hpa
    constructor
    · show cellAtIndex f' f'.cursorRow f'.cursorCol = some EMPTY
      rw [e4, e5, cellAtIndex_congr e1 e2 e3]
      exact hcEMPTY
    · show countNeighborMines f' f'.cursorRow f'.cursorCol = some 0
      rw [e4, e5, countNeighborMines_congr e1 e2 e3]
      exact hcnm
  | spaceRest f' r0 hf hpa =>
    rw [hfirst] at hf
    cases hf
  | nonSpace a f' r0 hne hpa =>
    exact absurd rfl hne

/-- Witness for C1: a concrete first open on the 3×3 grid with `p = 0`. -/
theorem c1_first_move_safety_witness :
    cellAtIndex ex33a ex33a.cursorRow ex33a.cursorCol = some EMPTY ∧
    countNeighborMines ex33a ex33a.cursorRow ex33a.cursorCol = some 0 := by
  have hgen : GenerateAtCursor (initField 3 3) 0 (generateMines (initField 3 3) 0 []) :=
    ⟨[], by decide, rfl, by decide, EMPTY, by decide, by decide⟩
  have hpa : performActionCore (generateMines (initField 3 3) 0 []) .space
      = some (ex33a, true) := by decide
  have hstep : Step 0 ⟨initField 3 3, true⟩ .space ⟨ex33a, false⟩ true :=
    Step.spaceFirst ⟨initField 3 3, true⟩ (generateMines (initField 3 3) 0 []) ex33a true
      rfl hgen hpa
  exact c1_first_move_safety (by decide) (by decide) rfl hstep

/-! ### C2: mine count -/

/-- C2: after mine placement with parameters `(rows, cols, p)`, `0 ≤ p ≤ 50`,
exactly `⌊rows · cols · p / 100⌋` cells hold a mine and the stored `numMines`
counter equals that value. -/
theorem c2_mine_count {f : Field} {p : Nat} {sample : List (Nat × Nat)}
    (_hp : p ≤ 50) (hvs : ValidSample f p sample) :
    countMines (generateMines f p sample).cells = f.rows * f.cols * p / 100 ∧
    (generateMines f p sample).numMines = f.rows * f.cols * p / 100 :=
  generateMines_mine_count hvs

/-- Witness for C2: 2×2 grid, `p = 50`, two mines. -/
theorem c2_mine_count_witness :
    countMines (generateMines (initField 2 2) 50 [(0, 0), (1, 1)]).cells
      = (initField 2 2).rows * (initField 2 2).cols * 50 / 100 ∧
    (generateMines (initField 2 2) 50 [(0, 0), (1, 1)]).numMines
      = (initField 2 2).rows * (initField 2 2).cols * 50 / 100 ∧
    (initField 2 2).rows * (initField 2 2).cols * 50 / 100 = 2 := by
  have h := @c2_mine_count (initField 2 2) 50 [(0, 0), (1, 1)] (by decide) (by decide)
  exact ⟨h.1, h.2, by decide⟩

/-! ### C3: the win / loss / continue predicate -/

/-- C3: from every reachable game state, an action makes `performAction`
report *stop(win)* exactly when it takes the `numClosed` counter from
`≠ numMines` to `= numMines` with no mine open, *stop(loss)* exactly when it
first opens a mine, and *continue* otherwise. -/
theorem c3_win_loss_continue {p : Nat} {s : GameState} {a : Action} {s' : GameState} {r : Bool}
    (hreach : Reachable p s) (hstep : Step p s a s' r) :
    (outcomeOf s'.field r = .win ↔
      (s.field.numClosed ≠ s.field.numMines ∧
        s'.field.numClosed = s'.field.numMines ∧ isMineOpen s'.field = false)) ∧
    (outcomeOf s'.field r = .loss ↔
      (isMineOpen s.field = false ∧ isMineOpen s'.field = true)) ∧
    (outcomeOf s'.field r = .cont ↔
      (s'.field.numClosed ≠ s'.field.numMines ∧ isMineOpen s'.field = false)) := by
  obtain ⟨⟨hwf, hfi, _⟩, hmo, hne⟩ := reachable_invR hreach
  obtain ⟨_, _, hdisj⟩ := step_analysis hwf hfi hstep
  rcases hdisj with ⟨hmo', hr, _⟩ | ⟨hr, hmo'⟩
  · have hmo2 : isMineOpen s'.field = false := hmo'.trans hmo
    cases hb : (s'.field.numClosed == s'.field.numMines) with
    | true =>
      have he : s'.field.numClosed = s'.field.numMines := by simpa using hb
      have hrv : r = false := by rw [hr, hb]; rfl
      have ho : outcomeOf s'.field r = .win := by simp [outcomeOf, hrv, hmo2]
      rw [ho]
      exact ⟨⟨fun _ => ⟨hne, he, hmo2⟩, fun _ => rfl⟩,
        ⟨fun h => Outcome.noConfusion h,
          fun hh => by rw [hh.2] at hmo2; exact Bool.noConfusion hmo2⟩,
        ⟨fun h => Outcome.noConfusion h, fun hh => absurd he hh.1⟩⟩
    | false =>
      have hne' : s'.field.numClosed ≠ s'.field.numMines := by simpa using hb
      have hrv : r = true := by rw [hr, hb]; rfl
      have ho : outcomeOf s'.field r = .cont := by simp [outcomeOf, hrv]
      rw [ho]
      exact ⟨⟨fun h => Outcome.noConfusion h, fun hh => absurd hh.2.1 hne'⟩,
        ⟨fun h => Outcome.noConfusion h,
          fun hh => by rw [hh.2] at hmo2; exact Bool.noConfusion hmo2⟩,
        ⟨fun _ => ⟨hne', hmo2⟩, fun _ => rfl⟩⟩
  · have ho : outcomeOf s'.field r = .loss := by simp [outcomeOf, hr, hmo']
    rw [ho]
    exact ⟨⟨fun h => Outcome.noConfusion h,
        fun hh => by rw [hh.2.2] at hmo'; exact Bool.noConfusion hmo'⟩,
      ⟨fun _ => ⟨hmo, hmo'⟩, fun _ => rfl⟩,
      ⟨fun h => Outcome.noConfusion h,
        fun hh => by rw [hh.2] at hmo'; exact Bool.noConfusion hmo'⟩⟩

/-- Witness for C3: a flag action on the fresh 2×2 board continues the game. -/
theorem c3_win_loss_continue_witness :
    (outcomeOf exFlag22 true = .win ↔
      ((initField 2 2).numClosed ≠ (initField 2 2).numMines ∧
        exFlag22.numClosed = exFlag22.numMines ∧ isMineOpen exFlag22 = false)) ∧
    (outcomeOf exFlag22 true = .loss ↔
      (isMineOpen (initField 2 2) = false ∧ isMineOpen exFlag22 = true)) ∧
    (outcomeOf exFlag22 true = .cont ↔
      (exFlag22.numClosed ≠ exFlag22.numMines ∧ isMineOpen exFlag22 = false)) := by
  have hstep : Step 20 ⟨initField 2 2, true⟩ .flag ⟨exFlag22, true⟩ true :=
    Step.nonSpace ⟨initField 2 2, true⟩ .flag exFlag22 true (by decide) (by decide)
  exact c3_win_loss_continue (Reachable.init 2 2 (by omega) (by omega)) hstep

/-! ### C4: `p = 0` and the win on the trivial grid -/

/-- Counterexample to C4 as stated: on the 2×2 grid with `p = 0`, the single
first Open action always returns *continue* (there is a continuing step, and
no stopping step exists), so the game is not immediately won. -/
theorem c4_immediate_win_counterexample :
    (∃ s' : GameState, Step 0 ⟨initField 2 2, true⟩ .space s' true) ∧
    ¬ (∃ s' : GameState, Step 0 ⟨initField 2 2, true⟩ .space s' false) := by
  constructor
  · exact ⟨⟨ex22a, false⟩,
      Step.spaceFirst ⟨initField 2 2, true⟩ (generateMines (initField 2 2) 0 []) ex22a true
        rfl ⟨[], by decide, rfl, by decide, EMPTY, by decide, by decide⟩ (by decide)⟩
  · rintro ⟨s', hstep⟩
    cases hstep with
    | spaceFirst g f' r0 hf hgen hpa =>
      obtain ⟨sample, hvs, hgeq, _, _⟩ := hgen
      have hnil : sample = [] := by
        have hl := hvs.2.1
        simp [initField] at hl
        exact hl
      subst hnil
      subst hgeq
      have hval : performActionCore (generateMines (initField 2 2) 0 []) .space
          = some (ex22a, true) := by decide
      rw [hval] at hpa
      injection hpa with hh
      injection hh with h1 h2
      exact Bool.noConfusion h2
    | spaceRest f' r0 hf hpa => exact Bool.noConfusion hf
    | nonSpace a f' r0 hne hpa => exact hne rfl

/-- C4 amended: with `p = 0` the accepted sample is empty and no mines are
placed; the game is won only once every cell has been opened — on the 2×2 grid
the first Open returns *continue* and the fourth Open (after moving right,
down, left) returns *stop(win)* with all four cells Open and no mines. -/
theorem c4_no_mines_win_amended :
    (∀ (f : Field) (sample : List (Nat × Nat)), ValidSample f 0 sample →
      sample = [] ∧ countMines (generateMines f 0 sample).cells = 0 ∧
        (generateMines f 0 sample).numMines = 0) ∧
    (∃ s1 s2 s3 s4 s5 s6 s7 : GameState,
      Step 0 ⟨initField 2 2, true⟩ .space s1 true ∧ Step 0 s1 .right s2 true ∧
      Step 0 s2 .space s3 true ∧ Step 0 s3 .down s4 true ∧ Step 0 s4 .space s5 true ∧
      Step 0 s5 .left s6 true ∧ Step 0 s6 .space s7 false ∧
      outcomeOf s7.field false = .win ∧ s7.field.states = [OPEN, OPEN, OPEN, OPEN] ∧
      countMines s7.field.cells = 0) := by
  constructor
  · intro f sample hvs
    have hnil : sample = [] := by
      have hl := hvs.2.1
      have hz : f.rows * f.cols * 0 / 100 = 0 := by simp
      rw [hz] at hl
      exact List.eq_nil_of_length_eq_zero hl
    subst hnil
    refine ⟨rfl, ?_, ?_⟩
    · exact countMines_replicate _
    · show f.rows * f.cols * 0 / 100 = 0
      simp
  · refine ⟨⟨ex22a, false⟩, ⟨ex22b, false⟩, ⟨ex22c, false⟩, ⟨ex22d, false⟩,
      ⟨ex22e, false⟩, ⟨ex22f, false⟩, ⟨ex22g, false⟩,
      ?_, ?_, ?_, ?_, ?_, ?_, ?_, by decide, by decide, by decide⟩
    · exact Step.spaceFirst ⟨initField 2 2, true⟩ (generateMines (initField 2 2) 0 []) ex22a
        true rfl ⟨[], by decide, rfl, by decide, EMPTY, by decide, by decide⟩ (by decide)
    · exact Step.nonSpace ⟨ex22a, false⟩ .right ex22b true (by decide) (by decide)
    · exact Step.spaceRest ⟨ex22b, false⟩ ex22c true rfl (by decide)
    · exact Step.nonSpace ⟨ex22c, false⟩ .down ex22d true (by decide) (by decide)
    · exact Step.spaceRest ⟨ex22d, false⟩ ex22e true rfl (by decide)
    · exact Step.nonSpace ⟨ex22e, false⟩ .left ex22f true (by decide) (by decide)
    · exact Step.spaceRest ⟨ex22f, false⟩ ex22g false rfl (by decide)

/-- Witness for the amended C4: the general `p = 0` clause at a concrete
grid and sample. -/
theorem c4_no_mines_win_amended_witness :
    ([] : List (Nat × Nat)) = [] ∧
    countMines (generateMines (initField 1 1) 0 []).cells = 0 ∧
    (generateMines (initField 1 1) 0 []).numMines = 0 :=
  c4_no_mines_win_amended.1 (initField 1 1) [] (by decide)

/-! ### C5: flag protects -/

/-- Counterexample to C5 as stated: in a reachable state whose flagged cursor
cell is about to receive the *first* Open, the Open action is not a no-op —
mine placement still runs, changing `numMines` and the cell contents. -/
theorem c5_flag_protects_counterexample :
    Reachable 25 ⟨exFlag33, true⟩ ∧
    stateAtIndex exFlag33 exFlag33.cursorRow exFlag33.cursorCol = some FLAGGED ∧
    (∃ s' : GameState, Step 25 ⟨exFlag33, true⟩ .space s' true ∧
      s'.field.numMines ≠ exFlag33.numMines ∧ s'.field.cells ≠ exFlag33.cells) := by
  refine ⟨?_, by decide, ⟨exFlag33g, false⟩, ?_, by decide, by decide⟩
  · exact Reachable.step (Reachable.init 3 3 (by omega) (by omega))
      (Step.nonSpace ⟨initField 3 3, true⟩ .flag exFlag33 true (by decide) (by decide))
  · exact Step.spaceFirst ⟨exFlag33, true⟩ exFlag33g exFlag33g true rfl
      ⟨[(0, 2), (2, 2)], by decide, rfl, by decide, EMPTY, by decide, by decide⟩ (by decide)

/-- C5 amended: an Open action on a Flagged cursor cell never changes any
cell's state, the cursor, the dimensions, or `numClosed`; when it is not the
first Open of the game it is a complete no-op (the field is unchanged).  On a
first Open, mine placement still runs, so contents and `numMines` may change. -/
theorem c5_flag_protects_amended {p : Nat} {s s' : GameState} {r : Bool}
    (hflag : stateAtIndex s.field s.field.cursorRow s.field.cursorCol = some FLAGGED)
    (hstep : Step p s .space s' r) :
    s'.field.states = s.field.states ∧ s'.field.numClosed = s.field.numClosed ∧
    s'.field.rows = s.field.rows ∧ s'.field.cols = s.field.cols ∧
    s'.field.cursorRow = s.field.cursorRow ∧ s'.field.cursorCol = s.field.cursorCol ∧
    (s.first = false → s'.field = s.field) := by
  cases hstep with
  | spaceRest f' r0 hf hpa =>
    have hop := openAtCursor_notClosed hflag (by simp)
    rw [performSpace_empty hop] at hpa
    injection hpa with hh
    unfold finalizeAction at hh
    injection hh with h1 h2
    subst h1
    exact ⟨rfl, rfl, rfl, rfl, rfl, rfl, fun _ => rfl⟩
  | spaceFirst g f' r0 hf hgen hpa =>
    obtain ⟨sample, hvs, hgeq, _, _⟩ := hgen
    have hflag' : stateAtIndex g g.cursorRow g.cursorCol = some FLAGGED := by
      rw [hgeq]
      exact hflag
    have hop := openAtCursor_notClosed hflag' (by simp)
    rw [performSpace_empty hop] at hpa
    injection hpa with hh
    unfold finalizeAction at hh
    injection hh with h1 h2
    subst h1
    subst hgeq
    exact ⟨rfl, rfl, rfl, rfl, rfl, rfl, fun hcontra => by rw [hf] at hcontra; cases hcontra⟩
  | nonSpace a f' r0 hne hpa => exact absurd rfl hne

/-- Witness for the amended C5: a non-first Open on the flagged corner of the
3×3 board is a complete no-op. -/
theorem c5_flag_protects_amended_witness :
    exFlag33.states = exFlag33.states ∧ exFlag33.numClosed = exFlag33.numClosed ∧
    exFlag33.rows = exFlag33.rows ∧ exFlag33.cols = exFlag33.cols ∧
    exFlag33.cursorRow = exFlag33.cursorRow ∧ exFlag33.cursorCol = exFlag33.cursorCol ∧
    ((false : Bool) = false → exFlag33 = exFlag33) := by
  have hstep : Step 25 ⟨exFlag33, false⟩ .space ⟨exFlag33, false⟩ true :=
    Step.spaceRest ⟨exFlag33, false⟩ exFlag33 true rfl (by decide)
  exact c5_flag_protects_amended (by decide) hstep

/-! ### C6: losing reveals all mines -/

/-- C6: an Open action performed on a Closed cell whose content is Mine (so
the mine placement has already happened: `first = false`) returns
*stop(loss)*, and afterwards every mine cell is Open while the states of
non-mine cells are unchanged. -/
theorem c6_loss_reveals_mines {p : Nat} {s s' : GameState} {r : Bool}
    (hwf : Wf s.field) (hfirst : s.first = false)
    (hst : stateAtIndex s.field s.field.cursorRow s.field.cursorCol = some CLOSED)
    (hct : cellAtIndex s.field s.field.cursorRow s.field.cursorCol = some MINE)
    (hstep : Step p s .space s' r) :
    outcomeOf s'.field r = .loss ∧
    (∀ i, i < s.field.rows * s.field.cols → s.field.cells.getD i EMPTY = MINE →
      s'.field.states.getD i CLOSED = OPEN) ∧
    (∀ i, i < s.field.rows * s.field.cols → s.field.cells.getD i EMPTY ≠ MINE →
      s'.field.states.getD i CLOSED = s.field.states.getD i CLOSED) := by
  cases hstep with
  | spaceFirst g f' r0 hf hgen hpa =>
    rw [hfirst] at hf
    cases hf
  | nonSpace a f' r0 hne hpa => exact absurd rfl hne
  | spaceRest f' r0 hf hpa =>
    obtain ⟨hr1, hc1, hlc, hls, hcr, hcc⟩ := hwf
    have hidx : s.field.cursorRow * s.field.cols + s.field.cursorCol
        < s.field.rows * s.field.cols := rowMajor_lt hcr hcc
    have hidxMine : s.field.cells.getD
        (s.field.cursorRow * s.field.cols + s.field.cursorCol) EMPTY = MINE :=
      (cellAtIndex_some hct).2.2.2
    have hop : openAtCursor s.field = some
        ({ s.field with
            states := s.field.states.set
              (s.field.cursorRow * s.field.cols + s.field.cursorCol) OPEN,
            numClosed := s.field.numClosed - 1 }, MINE) := by
      rw [openAtCursor_closed hst, hct]
      rfl
    rw [performSpace_mine hop] at hpa
    injection hpa with hh
    injection hh with h1 h2
    subst h1
    subst h2
    have hlc1 : ({ s.field with
        states := s.field.states.set
          (s.field.cursorRow * s.field.cols + s.field.cursorCol) OPEN,
        numClosed := s.field.numClosed - 1 } : Field).cells.length
        = s.field.rows * s.field.cols := hlc
    have hls1 : ({ s.field with
        states := s.field.states.set
          (s.field.cursorRow * s.field.cols + s.field.cursorCol) OPEN,
        numClosed := s.field.numClosed - 1 } : Field).states.length
        = s.field.rows * s.field.cols := by
      rw [List.length_set]
      exact hls
    refine ⟨?_, ?_, ?_⟩
    · have hmo : isMineOpen (revealMines { s.field with
          states := s.field.states.set
            (s.field.cursorRow * s.field.cols + s.field.cursorCol) OPEN,
          numClosed := s.field.numClosed - 1 }) = true := by
        rw [isMineOpen_iff]
        refine ⟨s.field.cursorRow * s.field.cols + s.field.cursorCol, hidx, hidxMine, ?_⟩
        rw [revealMines_states_getD hlc1 hls1 hidx]
        rw [if_pos hidxMine]
      simp [outcomeOf, hmo]
    · intro i hi hmine
      show (revealMines _).states.getD i CLOSED = OPEN
      rw [revealMines_states_getD hlc1 hls1 hi]
      rw [if_pos hmine]
    · intro i hi hnotmine
      have hne : s.field.cursorRow * s.field.cols + s.field.cursorCol ≠ i := by
        intro he
        rw [he] at hidxMine
        exact hnotmine hidxMine
      show (revealMines _).states.getD i CLOSED = s.field.states.getD i CLOSED
      rw [revealMines_states_getD hlc1 hls1 hi]
      rw [if_neg hnotmine]
      show (s.field.states.set _ OPEN).getD i CLOSED = s.field.states.getD i CLOSED
      exact getD_set_ne _ _ _ hne

/-- Witness for C6: opening the mine at `(0, 0)` of `exMine22` loses and
reveals the second mine at `(1, 1)` while the empty cell `(0, 1)` stays
Closed. -/
theorem c6_loss_reveals_mines_witness :
    outcomeOf exMine22d false = .loss ∧
    exMine22d.states.getD 0 CLOSED = OPEN ∧
    exMine22d.states.getD 3 CLOSED = OPEN ∧
    exMine22d.states.getD 1 CLOSED = CLOSED := by
  have hstep : Step 20 ⟨exMine22, false⟩ .space ⟨exMine22d, false⟩ false :=
    Step.spaceRest ⟨exMine22, false⟩ exMine22d false rfl (by decide)
  have h := c6_loss_reveals_mines (by decide) rfl (by decide) (by decide) hstep
  exact ⟨h.1, h.2.1 0 (by decide) (by decide), h.2.1 3 (by decide) (by decide),
    (h.2.2 1 (by decide) (by decide)).trans (by decide)⟩

/-! ### C7: the `numClosed` derived-counter invariant -/

/-- Counterexample to C7 as stated: a state reachable by a sequence of
actions (ending in the losing Open on the 4×4, `p = 50` board) in which
`numClosed` differs from the number of non-Open cells — the loss reveal opens
every mine without updating `numClosed`. -/
theorem c7_numClosed_counterexample :
    ∃ s : GameState, ReachableAny 50 s ∧ s.field.numClosed ≠ countNonOpen s.field := by
  refine ⟨⟨exG44d, false⟩, ?_, by decide⟩
  have h1 : Step 50 ⟨initField 4 4, true⟩ .space ⟨exG44a, false⟩ true :=
    Step.spaceFirst ⟨initField 4 4, true⟩ exG44 exG44a true rfl
      ⟨[(2, 0), (2, 1), (2, 2), (2, 3), (3, 0), (3, 1), (3, 2), (3, 3)],
        by decide, rfl, by decide, EMPTY, by decide, by decide⟩ (by decide)
  have h2 : Step 50 ⟨exG44a, false⟩ .down ⟨exG44b, false⟩ true :=
    Step.nonSpace ⟨exG44a, false⟩ .down exG44b true (by decide) (by decide)
  have h3 : Step 50 ⟨exG44b, false⟩ .down ⟨exG44c, false⟩ true :=
    Step.nonSpace ⟨exG44b, false⟩ .down exG44c true (by decide) (by decide)
  have h4 : Step 50 ⟨exG44c, false⟩ .space ⟨exG44d, false⟩ false :=
    Step.spaceRest ⟨exG44c, false⟩ exG44d false rfl (by decide)
  exact ReachableAny.step (ReachableAny.step (ReachableAny.step
    (ReachableAny.step (ReachableAny.init 4 4 (by omega) (by omega)) h1) h2) h3) h4

/-- C7 amended: in every state reachable from grid creation by any sequence
of actions *in which no mine is Open* (all states of an ongoing game and the
final state of a won game), `numClosed` equals the number of cells whose
state is Closed or Flagged; the equality can only break on the stop(loss)
reveal, which opens mine cells without updating `numClosed`. -/
theorem c7_numClosed_invariant_amended {p : Nat} {s : GameState}
    (hreach : ReachableAny p s) (hnomine : isMineOpen s.field = false) :
    s.field.numClosed = countNonOpen s.field :=
  (reachableAny_invAny hreach).2.2 hnomine

/-- Witness for the amended C7: the fresh 2×2 board. -/
theorem c7_numClosed_invariant_amended_witness :
    (initField 2 2).numClosed = countNonOpen (initField 2 2) :=
  @c7_numClosed_invariant_amended 20 ⟨initField 2 2, true⟩
    (ReachableAny.init 2 2 (by omega) (by omega)) (by decide)

/-! ### C8: neighbor counting and its bounds -/

theorem specNeighborP_eq_true_iff {f : Field} {row col : Nat} {d : Int × Int} :
    specNeighborP f row col d = true ↔
      (0 ≤ (row : Int) + d.1 ∧ (row : Int) + d.1 < (f.rows : Int) ∧
       0 ≤ (col : Int) + d.2 ∧ (col : Int) + d.2 < (f.cols : Int) ∧
       f.cells.getD (((row : Int) + d.1).toNat * f.cols + ((col : Int) + d.2).toNat) EMPTY
         = MINE) := by
  unfold specNeighborP
  simp [Bool.and_eq_true, decide_eq_true_eq, and_assoc]

theorem specNeighborCount_le_countP (f : Field) (row col : Nat) (Q : Int × Int → Bool)
    (h : ∀ d ∈ neighborDeltas, specNeighborP f row col d = true → Q d = true) :
    specNeighborCount f row col ≤ neighborDeltas.countP Q :=
  List.countP_mono_left h

/-- Counterexample to C8 as stated: on a 3×3 board whose five in-grid
neighbors of the edge (non-corner) cell `(0, 1)` are all mines, the neighbor
count is 5, refuting the claimed bound of 3 for edge cells (the spec swapped
the edge and corner bounds). -/
theorem c8_neighbor_bounds_counterexample :
    isEdgeCell exEdge33 0 1 ∧ countNeighborMines exEdge33 0 1 = some 5 ∧ ¬ (5 ≤ 3) :=
  ⟨by decide, by decide, by decide⟩

/-- C8 amended: `countNeighborMines` computes the number of deltas
`(dr, dc) ∈ {-1,0,1}² \ {(0,0)}` whose target lies inside the grid and holds
a mine (never counting the cell itself), and consequently corner cells return
counts in `[0, 3]` and edge (border non-corner) cells counts in `[0, 5]`. -/
theorem c8_neighbor_count_amended {f : Field} {row col : Nat}
    (hr : row < f.rows) (hc : col < f.cols) (hrW : f.rows < szW) (hcW : f.cols < szW)
    (hlen : f.cells.length = f.rows * f.cols) :
    countNeighborMines f row col = some (specNeighborCount f row col) ∧
    (isCorner f row col → specNeighborCount f row col ≤ 3) ∧
    (isEdgeCell f row col → specNeighborCount f row col ≤ 5) := by
  have hrows1 : 1 ≤ f.rows := by omega
  have hcols1 : 1 ≤ f.cols := by omega
  have hboundRow0 : row = 0 →
      ∀ d ∈ neighborDeltas, specNeighborP f row col d = true → decide (0 ≤ d.1) = true := by
    intro h0 d _ hp
    obtain ⟨h1, _, _, _, _⟩ := specNeighborP_eq_true_iff.mp hp
    rw [h0] at h1
    simp only [decide_eq_true_eq]
    omega
  have hboundRowL : row = f.rows - 1 →
      ∀ d ∈ neighborDeltas, specNeighborP f row col d = true → decide (d.1 ≤ 0) = true := by
    intro hL d _ hp
    obtain ⟨_, h2, _, _, _⟩ := specNeighborP_eq_true_iff.mp hp
    rw [hL] at h2
    simp only [decide_eq_true_eq]
    omega
  have hboundCol0 : col = 0 →
      ∀ d ∈ neighborDeltas, specNeighborP f row col d = true → decide (0 ≤ d.2) = true := by
    intro h0 d _ hp
    obtain ⟨_, _, h3, _, _⟩ := specNeighborP_eq_true_iff.mp hp
    rw [h0] at h3
    simp only [decide_eq_true_eq]
    omega
  have hboundColL : col = f.cols - 1 →
      ∀ d ∈ neighborDeltas, specNeighborP f row col d = true → decide (d.2 ≤ 0) = true := by
    intro hL d _ hp
    obtain ⟨_, _, _, h4, _⟩ := specNeighborP_eq_true_iff.mp hp
    rw [hL] at h4
    simp only [decide_eq_true_eq]
    omega
  refine ⟨countNeighborMines_eq_spec hr hc hrW hcW hlen, ?_, ?_⟩
  · rintro ⟨hrow | hrow, hcol | hcol⟩
    · refine le_trans (specNeighborCount_le_countP f row col
        (fun d => decide (0 ≤ d.1) && decide (0 ≤ d.2)) ?_) (by decide)
      intro d hd hp
      rw [Bool.and_eq_true]
      exact ⟨hboundRow0 hrow d hd hp, hboundCol0 hcol d hd hp⟩
    · refine le_trans (specNeighborCount_le_countP f row col
        (fun d => decide (0 ≤ d.1) && decide (d.2 ≤ 0)) ?_) (by decide)
      intro d hd hp
      rw [Bool.and_eq_true]
      exact ⟨hboundRow0 hrow d hd hp, hboundColL hcol d hd hp⟩
    · refine le_trans (specNeighborCount_le_countP f row col
        (fun d => decide (d.1 ≤ 0) && decide (0 ≤ d.2)) ?_) (by decide)
      intro d hd hp
      rw [Bool.and_eq_true]
      exact ⟨hboundRowL hrow d hd hp, hboundCol0 hcol d hd hp⟩
    · refine le_trans (specNeighborCount_le_countP f row col
        (fun d => decide (d.1 ≤ 0) && decide (d.2 ≤ 0)) ?_) (by decide)
      intro d hd hp
      rw [Bool.and_eq_true]
      exact ⟨hboundRowL hrow d hd hp, hboundColL hcol d hd hp⟩
  · rintro ⟨hrow | hrow | hcol | hcol, _⟩
    · exact le_trans (specNeighborCount_le_countP f row col
        (fun d => decide (0 ≤ d.1)) (hboundRow0 hrow)) (by decide)
    · exact le_trans (specNeighborCount_le_countP f row col
        (fun d => decide (d.1 ≤ 0)) (hboundRowL hrow)) (by decide)
    · exact le_trans (specNeighborCount_le_countP f row col
        (fun d => decide (0 ≤ d.2)) (hboundCol0 hcol)) (by decide)
    · exact le_trans (specNeighborCount_le_countP f row col
        (fun d => decide (d.2 ≤ 0)) (hboundColL hcol)) (by decide)

/-- Witness for the amended C8: the corner `(0, 0)` of `exEdge33`. -/
theorem c8_neighbor_count_amended_witness :
    countNeighborMines exEdge33 0 0 = some (specNeighborCount exEdge33 0 0) ∧
    (isCorner exEdge33 0 0 → specNeighborCount exEdge33 0 0 ≤ 3) ∧
    (isEdgeCell exEdge33 0 0 → specNeighborCount exEdge33 0 0 ≤ 5) :=
  c8_neighbor_count_amended (by decide) (by decide) (by decide) (by decide) (by decide)

/-! ### C9: flag involution -/

theorem set_eq_self_of_getD {l : List α} {i : Nat} {x d : α}
    (hi : i < l.length) (h : l.getD i d = x) : l.set i x = l := by
  apply List.ext_getElem?
  intro j
  rw [List.getElem?_set]
  by_cases hij : i = j
  · subst hij
    rw [if_pos rfl, if_pos hi, ← h, List.getD_eq_getElem _ _ hi,
      List.getElem?_eq_getElem hi]
  · rw [if_neg hij]

/-- C9: on a state whose cursor cell is Closed, two consecutive Flag actions
return it to the original field, and so do four; a Flag action on an Open
cursor cell leaves the field unchanged. -/
theorem c9_flag_involution (f : Field) :
    (stateAtIndex f f.cursorRow f.cursorCol = some CLOSED →
      flagTwice f = some f ∧ flagFourTimes f = some f) ∧
    (stateAtIndex f f.cursorRow f.cursorCol = some OPEN → flagAtCursor f = some f) := by
  constructor
  · intro hst
    obtain ⟨hcr, hcc, hidxs, hgetd⟩ := stateAtIndex_some hst
    have h2 : flagTwice f = some f := by
      unfold flagTwice
      rw [flagAtCursor_closed hst]
      show flagAtCursor { f with states := f.states.set (f.cursorRow * f.cols + f.cursorCol) FLAGGED } = some f
      have hst1 : stateAtIndex { f with states := f.states.set (f.cursorRow * f.cols + f.cursorCol) FLAGGED } f.cursorRow f.cursorCol = some FLAGGED := by
        show (if f.cursorRow ≥ f.rows ∨ f.cursorCol ≥ f.cols then none
          else (f.states.set (f.cursorRow * f.cols + f.cursorCol) FLAGGED).get?
            (f.cursorRow * f.cols + f.cursorCol)) = some FLAGGED
        rw [if_neg (by omega)]
        rw [get?_eq_of_getD CLOSED (by rw [List.length_set]; exact hidxs),
          getD_set_self _ _ _ _ hidxs]
      rw [flagAtCursor_flagged hst1]
      show some { f with states := (f.states.set (f.cursorRow * f.cols + f.cursorCol) FLAGGED).set (f.cursorRow * f.cols + f.cursorCol) CLOSED } = some f
      rw [List.set_set, set_eq_self_of_getD hidxs hgetd]
    refine ⟨h2, ?_⟩
    unfold flagFourTimes
    rw [h2]
    exact h2
  · intro hst
    exact flagAtCursor_open hst

/-- Witness for C9: the 1×1 all-closed board and the 1×1 open board. -/
theorem c9_flag_involution_witness :
    (flagTwice (initField 1 1) = some (initField 1 1) ∧
      flagFourTimes (initField 1 1) = some (initField 1 1)) ∧
    flagAtCursor exOpen11 = some exOpen11 :=
  ⟨(c9_flag_involution (initField 1 1)).1 (by decide),
    (c9_flag_involution exOpen11).2 (by decide)⟩

/-! ### C10: the neighbor scan never reaches the out-of-bounds abort -/

/-- C10: for every field with `rows, cols ≥ 1` (and `size_t`-representable
dimensions) whose cell buffer has the allocated length, and every in-range
`(row, col)`, `countNeighborMines` returns a value — the `size_t` wraparound
of `row + row_delta` / `col + col_delta` at the border is caught by the
`curr_col ≥ cols ∨ curr_row ≥ rows` guard, so the aborting branch of
`cellAtIndex` (modelled as `none`) is never taken. -/
theorem c10_neighbor_scan_in_bounds {f : Field} {row col : Nat}
    (_hr1 : 1 ≤ f.rows) (_hc1 : 1 ≤ f.cols) (hr : row < f.rows) (hc : col < f.cols)
    (hrW : f.rows < szW) (hcW : f.cols < szW) (hlen : f.cells.length = f.rows * f.cols) :
    (countNeighborMines f row col).isSome = true := by
  rw [countNeighborMines_eq_spec hr hc hrW hcW hlen]
  rfl

/-- Witness for C10: the center cell of `exEdge33` (and thereby, via the
guard, its border-wrapping neighbors). -/
theorem c10_neighbor_scan_in_bounds_witness :
    (countNeighborMines exEdge33 0 0).isSome = true :=
  c10_neighbor_scan_in_bounds (by decide) (by decide) (by decide) (by decide)
    (by decide) (by decide) (by decide)

end MS
